import Mathlib

/-!
Verification of the Discord analyzer's LLM analysis pipeline
(`src/analyzers/llm_analyzer.py`), shallowly embedded in Lean 4.

Conventions of the embedding:
* Python floats (intent scores) are modelled by `ℚ`.
* Python `dict.get(k, default)` on an optional JSON field is modelled by
  `Option.getD`; bracket access `d[k]`, which raises `KeyError` when the
  key is absent, is modelled by explicit failure propagation (`Option`
  results, or an `ok` flag together with the partially mutated state,
  matching the `try/except` structure of the source).
* Python `set` values are modelled by lists deduplicated keeping first
  occurrences (Python's set iteration order is unspecified; set-level
  statements are phrased via `List.toFinset`).
* `datetime.utcnow()` is modelled by an explicit `now : ℕ` parameter.
* The tiktoken tokenizer is external; it enters as a parameter
  `tok : Message → ℕ` giving each message's token count.
-/

/-- A stored Discord message (`models/database.py`, class `Message`);
only the columns the analyzer reads are modelled. -/
structure Message where
  id : ℤ
  channel_id : ℤ
  author_name : String
  content : String
deriving DecidableEq, Repr

/-- Total token count of a list of messages under tokenizer `tok`. -/
def batchTokens (tok : Message → ℕ) (batch : List Message) : ℕ :=
  (batch.map tok).sum

/-- One step of the batching loop of `LLMAnalyzer._create_message_batches`:
the accumulator is (closed batches, current batch, current token count). -/
def batchStep (tok : Message → ℕ) (maxTokens : ℕ)
    (acc : List (List Message) × List Message × ℕ) (msg : Message) :
    List (List Message) × List Message × ℕ :=
  let (batches, cur, curTok) := acc
  let t := tok msg
  if curTok + t > maxTokens ∧ cur ≠ [] then
    (batches ++ [cur], [msg], t)
  else
    (batches, cur ++ [msg], curTok + t)

/-- Model of `LLMAnalyzer._create_message_batches`, generalized over the token
budget (the source hardcodes `max_tokens = 3000`): greedy linear scan,
closing the current batch when adding the next message would exceed the
budget and the current batch is non-empty. -/
def createMessageBatchesWith (tok : Message → ℕ) (maxTokens : ℕ)
    (messages : List Message) : List (List Message) :=
  let (batches, cur, _) := messages.foldl (batchStep tok maxTokens) ([], [], 0)
  if cur = [] then batches else batches ++ [cur]

/-- Model of `LLMAnalyzer._create_message_batches` with the source's hardcoded
budget of 3000 tokens. -/
def createMessageBatches (tok : Message → ℕ) (messages : List Message) :
    List (List Message) :=
  createMessageBatchesWith tok 3000 messages

/-- Invariant carried through the batching fold: every closed batch is
within budget or a singleton, the current token counter equals the current
batch's total, and the current batch is within budget or a singleton. -/
def BatchInv (tok : Message → ℕ) (maxTokens : ℕ)
    (acc : List (List Message) × List Message × ℕ) : Prop :=
  (∀ b ∈ acc.1, batchTokens tok b ≤ maxTokens ∨ b.length = 1) ∧
    acc.2.2 = batchTokens tok acc.2.1 ∧
    (batchTokens tok acc.2.1 ≤ maxTokens ∨ acc.2.1.length = 1)

theorem batchStep_inv (tok : Message → ℕ) (maxTokens : ℕ)
    (acc : List (List Message) × List Message × ℕ) (msg : Message)
    (h : BatchInv tok maxTokens acc) :
    BatchInv tok maxTokens (batchStep tok maxTokens acc msg) := by
  obtain ⟨batches, cur, curTok⟩ := acc
  obtain ⟨h1, h2, h3⟩ := h
  unfold batchStep BatchInv
  dsimp only at h1 h2 h3 ⊢
  split
  · refine ⟨?_, ?_, ?_⟩
    · intro b hb
      rcases List.mem_append.1 hb with hb | hb
      · exact h1 b hb
      · simp only [List.mem_singleton] at hb
        subst hb
        exact h3
    · simp [batchTokens]
    · rename_i hcond
      by_cases hle : batchTokens tok [msg] ≤ maxTokens
      · exact Or.inl hle
      · exact Or.inr rfl
  · rename_i hcond
    refine ⟨h1, ?_, ?_⟩
    · simp [batchTokens, h2]
    · rw [Classical.not_and_iff_or_not_not] at hcond
      rcases hcond with hcond | hcond
      · push_neg at hcond
        left
        simpa [batchTokens, h2] using hcond
      · push_neg at hcond
        subst hcond
        by_cases hle : batchTokens tok ([] ++ [msg]) ≤ maxTokens
        · exact Or.inl hle
        · right; rfl

theorem foldl_batch_inv (tok : Message → ℕ) (maxTokens : ℕ)
    (messages : List Message)
    (acc : List (List Message) × List Message × ℕ)
    (h : BatchInv tok maxTokens acc) :
    BatchInv tok maxTokens (messages.foldl (batchStep tok maxTokens) acc) := by
  induction messages generalizing acc with
  | nil => exact h
  | cons m ms ih =>
    exact ih _ (batchStep_inv tok maxTokens acc m h)

theorem createMessageBatchesWith_bound (tok : Message → ℕ) (maxTokens : ℕ)
    (messages : List Message) :
    ∀ b ∈ createMessageBatchesWith tok maxTokens messages,
      batchTokens tok b ≤ maxTokens ∨ b.length = 1 := by
  have h0 : BatchInv tok maxTokens ([], [], 0) := by
    refine ⟨by simp, by simp [batchTokens], Or.inl ?_⟩
    simp [batchTokens]
  have h := foldl_batch_inv tok maxTokens messages ([], [], 0) h0
  unfold createMessageBatchesWith
  generalize hacc : messages.foldl (batchStep tok maxTokens) ([], [], 0) = acc at h ⊢
  obtain ⟨batches, cur, curTok⟩ := acc
  obtain ⟨h1, _, h3⟩ := h
  dsimp only at h1 h3 ⊢
  intro b hb
  split at hb
  · exact h1 b hb
  · rcases List.mem_append.1 hb with hb | hb
    · exact h1 b hb
    · simp only [List.mem_singleton] at hb
      subst hb
      exact h3

/-- C1 (batching bound): for every tokenizer, message sequence and
positive token budget, every batch returned by
`_create_message_batches` either has total token count at most the
budget, or consists of exactly one message whose own token count exceeds
the budget. -/
theorem batching_bound (tok : Message → ℕ) (maxTokens : ℕ)
    (messages : List Message) (hpos : 0 < maxTokens) :
    ∀ b ∈ createMessageBatchesWith tok maxTokens messages,
      batchTokens tok b ≤ maxTokens ∨
        ∃ m, b = [m] ∧ maxTokens < tok m := by
  intro b hb
  rcases createMessageBatchesWith_bound tok maxTokens messages b hb with h | h
  · exact Or.inl h
  · match b, h with
    | [m], _ =>
      by_cases hle : tok m ≤ maxTokens
      · left
        simpa [batchTokens] using hle
      · right
        exact ⟨m, rfl, Nat.lt_of_not_le hle⟩

theorem batching_bound_witness :
    0 < 10 ∧
      ∀ b ∈ createMessageBatchesWith (fun m => m.content.length) 10
          [⟨1, 1, "a", "hello"⟩, ⟨2, 1, "b", "this message is far too long"⟩,
            ⟨3, 1, "c", "hi"⟩],
        batchTokens (fun m => m.content.length) b ≤ 10 ∨
          ∃ m, b = [m] ∧ 10 < m.content.length :=
  ⟨by decide,
    batching_bound (fun m => m.content.length) 10
      [⟨1, 1, "a", "hello"⟩, ⟨2, 1, "b", "this message is far too long"⟩,
        ⟨3, 1, "c", "hi"⟩] (by decide)⟩

theorem foldl_batch_flatten (tok : Message → ℕ) (maxTokens : ℕ)
    (messages : List Message)
    (acc : List (List Message) × List Message × ℕ) :
    (messages.foldl (batchStep tok maxTokens) acc).1.flatten ++
        (messages.foldl (batchStep tok maxTokens) acc).2.1 =
      acc.1.flatten ++ acc.2.1 ++ messages := by
  induction messages generalizing acc with
  | nil => simp
  | cons m ms ih =>
    obtain ⟨batches, cur, curTok⟩ := acc
    rw [List.foldl_cons, ih]
    unfold batchStep
    dsimp only
    split <;> simp

/-- C2 (batching completeness): concatenating the batches returned by
`_create_message_batches`, in order, yields exactly the input message
sequence — no message is dropped, duplicated, or reordered. -/
theorem batching_complete (tok : Message → ℕ) (maxTokens : ℕ)
    (messages : List Message) :
    (createMessageBatchesWith tok maxTokens messages).flatten = messages := by
  have h := foldl_batch_flatten tok maxTokens messages ([], [], 0)
  unfold createMessageBatchesWith
  generalize hacc : messages.foldl (batchStep tok maxTokens) ([], [], 0) = acc at h ⊢
  obtain ⟨batches, cur, curTok⟩ := acc
  dsimp only at h ⊢
  simp only [List.flatten_nil, List.nil_append] at h
  split
  · rename_i hcur
    subst hcur
    simpa using h
  · simpa using h

/-- Model of `LLMAnalyzer._calculate_engagement_level`: a pure function of the
score and message count, first matching rule wins. -/
def calculateEngagementLevel (score : ℚ) (message_count : ℕ) : String :=
  if score > 8/10 ∧ message_count > 5 then "high"
  else if score > 6/10 ∨ message_count > 3 then "medium"
  else "low"

/-- C4 (engagement classifier): the classifier is a pure function of
(score, message_count) with rules tested in the order high, medium, low
and the first match winning; in particular classify(0.85,6)=high,
classify(0.7,2)=medium, classify(0.4,1)=low, classify(0.6,4)=medium. -/
theorem engagement_classifier (s : ℚ) (n : ℕ) :
    (calculateEngagementLevel s n = "high" ↔ s > 8/10 ∧ n > 5) ∧
    (calculateEngagementLevel s n = "medium" ↔
      ¬(s > 8/10 ∧ n > 5) ∧ (s > 6/10 ∨ n > 3)) ∧
    (calculateEngagementLevel s n = "low" ↔
      ¬(s > 8/10 ∧ n > 5) ∧ ¬(s > 6/10 ∨ n > 3)) ∧
    calculateEngagementLevel (85/100) 6 = "high" ∧
    calculateEngagementLevel (7/10) 2 = "medium" ∧
    calculateEngagementLevel (4/10) 1 = "low" ∧
    calculateEngagementLevel (6/10) 4 = "medium" := by
  refine ⟨?_, ?_, ?_, ?_, ?_, ?_, ?_⟩
  · unfold calculateEngagementLevel; split_ifs with h1 h2 <;> simp_all
  · unfold calculateEngagementLevel; split_ifs with h1 h2 <;> simp_all
  · unfold calculateEngagementLevel; split_ifs with h1 h2 <;> simp_all
  · unfold calculateEngagementLevel; norm_num
  · unfold calculateEngagementLevel; norm_num
  · unfold calculateEngagementLevel; norm_num
  · unfold calculateEngagementLevel; norm_num

/-- One parsed entry of the model's JSON reply, as a Python dict: every
field is optional (`Option`), matching `analysis.get(...)` / bracket
access in the source. -/
structure Analysis where
  message_id : Option ℤ
  author : Option String
  intent_score : Option ℚ
  intent_type : Option String
  pain_points : Option (List String)
  interests : Option (List String)
  keywords : Option (List String)
  explanation : Option String
deriving DecidableEq, Repr

/-- Shape of the raw model reply as consumed by
`LLMAnalyzer._analyze_message_batch`: `json.loads` may raise
(`malformed`), the result may be a bare JSON array, an object with an
`analyses` array, or an object without one. -/
inductive RawReply where
  | malformed : RawReply
  | bareList : List Analysis → RawReply
  | objList : List Analysis → RawReply
  | objOther : RawReply
deriving DecidableEq, Repr

/-- The parse step of `_analyze_message_batch`:
`result = json.loads(...)`, then
`result if isinstance(result, list) else result.get('analyses', [])`.
`none` models the `json.loads` exception. -/
def parseRaw : RawReply → Option (List Analysis)
  | .malformed => none
  | .bareList l => some l
  | .objList l => some l
  | .objOther => some []

/-- A persisted `MessageAnalysis` row (`models/database.py`). -/
structure MessageAnalysis where
  message_id : ℤ
  intent_score : ℚ
  intent_type : String
  sentiment : String
  keywords : List String
  insights : String
deriving DecidableEq, Repr

/-- Model of `LLMAnalyzer._save_message_analysis`: skip if a row for the message
already exists, otherwise insert a row with `.get` defaults for the
optional fields and sentiment hardcoded to `"neutral"`. -/
def saveMessageAnalysis (st : List MessageAnalysis) (m : Message)
    (a : Analysis) : List MessageAnalysis :=
  if st.any (fun r => r.message_id == m.id) then st
  else st ++ [⟨m.id, a.intent_score.getD 0, a.intent_type.getD "", "neutral",
    a.keywords.getD [], a.explanation.getD ""⟩]

/-- The save loop of `_analyze_message_batch`: for each entry, look up
the first message of the batch with `m.id == analysis['message_id']` and
save if found. A missing `message_id` raises `KeyError` (second
component `false`), abandoning the rest of the loop but keeping the rows
already committed. -/
def saveLoop (batch : List Message) (st : List MessageAnalysis) :
    List Analysis → List MessageAnalysis × Bool
  | [] => (st, true)
  | a :: rest =>
    match a.message_id with
    | none => (st, false)
    | some mid =>
      match batch.find? (fun m => m.id == mid) with
      | some m => saveLoop batch (saveMessageAnalysis st m a) rest
      | none => saveLoop batch st rest

/-- Model of `LLMAnalyzer._analyze_message_batch` (with the model call abstracted
into the `reply` oracle): parse the reply, save per-message analyses,
return the parsed entries; any exception is caught and yields `[]` while
keeping the database rows already committed. -/
def analyzeMessageBatch (st : List MessageAnalysis) (batch : List Message)
    (reply : RawReply) : List Analysis × List MessageAnalysis :=
  match parseRaw reply with
  | none => ([], st)
  | some analyses =>
    let p := saveLoop batch st analyses
    if p.2 then (analyses, p.1) else ([], p.1)

theorem saveMessageAnalysis_mem (st : List MessageAnalysis) (m : Message)
    (a : Analysis) (r : MessageAnalysis)
    (hr : r ∈ saveMessageAnalysis st m a) : r ∈ st ∨ r.message_id = m.id := by
  unfold saveMessageAnalysis at hr
  split at hr
  · exact Or.inl hr
  · rcases List.mem_append.1 hr with hr | hr
    · exact Or.inl hr
    · simp only [List.mem_singleton] at hr
      subst hr
      exact Or.inr rfl

theorem saveLoop_mem (batch : List Message) (analyses : List Analysis)
    (st : List MessageAnalysis) (r : MessageAnalysis)
    (hr : r ∈ (saveLoop batch st analyses).1) :
    r ∈ st ∨ ∃ m ∈ batch, r.message_id = m.id := by
  induction analyses generalizing st with
  | nil => exact Or.inl hr
  | cons a rest ih =>
    unfold saveLoop at hr
    match ha : a.message_id with
    | none =>
      rw [ha] at hr
      exact Or.inl hr
    | some mid =>
      rw [ha] at hr
      dsimp only at hr
      match hf : batch.find? (fun m => m.id == mid) with
      | some m =>
        rw [hf] at hr
        rcases ih _ hr with hmem | hmem
        · rcases saveMessageAnalysis_mem st m a r hmem with h | h
          · exact Or.inl h
          · exact Or.inr ⟨m, List.mem_of_find?_eq_some hf, h⟩
        · exact Or.inr hmem
      | none =>
        rw [hf] at hr
        exact ih _ hr

theorem saveLoop_snd (batch : List Message) (analyses : List Analysis)
    (st : List MessageAnalysis) :
    (saveLoop batch st analyses).2 =
      analyses.all (fun a => a.message_id.isSome) := by
  induction analyses generalizing st with
  | nil => rfl
  | cons a rest ih =>
    unfold saveLoop
    match ha : a.message_id with
    | none => simp [ha]
    | some mid =>
      dsimp only
      match hf : batch.find? (fun m => m.id == mid) with
      | some m => simp [ha, hf, ih]
      | none => simp [ha, hf, ih]

/-- C6 counterexample: the claim "an entry whose message_id matches no
message in the batch is dropped from the parser's result sequence" is
false: with batch `[message 1]` and a reply containing a single entry for
message id 2, the entry is still present in the returned result sequence
of `_analyze_message_batch` (the membership check only gates persistence). -/
theorem unknown_id_not_dropped_cex :
    (∀ msg ∈ [(⟨1, 1, "alice", "hi"⟩ : Message)], msg.id ≠ 2) ∧
      (⟨some 2, some "bob", some 1, some "seeking_solution", some [],
          some [], some [], some ""⟩ : Analysis) ∈
        (analyzeMessageBatch [] [⟨1, 1, "alice", "hi"⟩]
          (.bareList [⟨some 2, some "bob", some 1, some "seeking_solution",
            some [], some [], some [], some ""⟩])).1 := by
  constructor
  · intro msg hmsg
    simp only [List.mem_singleton] at hmsg
    subst hmsg
    decide
  · decide

/-- C6 amended: an entry whose message_id matches no message in the
batch is skipped at persistence (every row of the resulting state is a
pre-existing row or refers to a message of the batch) and is not a fatal
error, but it remains in the returned result sequence and hence reaches
aggregation. -/
theorem unknown_id_skipped_at_persistence (st : List MessageAnalysis)
    (batch : List Message) (reply : RawReply) (analyses : List Analysis)
    (hp : parseRaw reply = some analyses)
    (hids : ∀ a ∈ analyses, a.message_id.isSome) :
    (analyzeMessageBatch st batch reply).1 = analyses ∧
      ∀ r ∈ (analyzeMessageBatch st batch reply).2,
        r ∈ st ∨ ∃ m ∈ batch, r.message_id = m.id := by
  unfold analyzeMessageBatch
  rw [hp]
  dsimp only
  have hok : (saveLoop batch st analyses).2 = true := by
    rw [saveLoop_snd]
    simpa [List.all_eq_true] using hids
  rw [hok]
  exact ⟨rfl, fun r hr => saveLoop_mem batch analyses st r hr⟩

theorem unknown_id_skipped_at_persistence_witness :
    parseRaw (.bareList [(⟨some 5, some "bob", some 1, none, none, none,
        none, none⟩ : Analysis)]) =
        some [⟨some 5, some "bob", some 1, none, none, none, none, none⟩] ∧
      (∀ a ∈ [(⟨some 5, some "bob", some 1, none, none, none, none,
          none⟩ : Analysis)], a.message_id.isSome) ∧
      ((analyzeMessageBatch [] [⟨1, 1, "alice", "hi"⟩]
          (.bareList [⟨some 5, some "bob", some 1, none, none, none, none,
            none⟩])).1 =
        [⟨some 5, some "bob", some 1, none, none, none, none, none⟩] ∧
        ∀ r ∈ (analyzeMessageBatch [] [⟨1, 1, "alice", "hi"⟩]
            (.bareList [⟨some 5, some "bob", some 1, none, none, none, none,
              none⟩])).2,
          r ∈ ([] : List MessageAnalysis) ∨
            ∃ m ∈ [(⟨1, 1, "alice", "hi"⟩ : Message)], r.message_id = m.id) :=
  ⟨rfl, by decide,
    unknown_id_skipped_at_persistence [] [⟨1, 1, "alice", "hi"⟩]
      (.bareList [⟨some 5, some "bob", some 1, none, none, none, none, none⟩])
      [⟨some 5, some "bob", some 1, none, none, none, none, none⟩]
      rfl (by decide)⟩

/-- The result sequence a single batch contributes to the run, as a
function of the raw reply alone: a malformed reply or a reply with an
entry missing `message_id` (whose `KeyError` is caught by the batch's
exception handler) contributes nothing. -/
def batchResult (reply : RawReply) : List Analysis :=
  match parseRaw reply with
  | none => []
  | some analyses =>
    if analyses.all (fun a => a.message_id.isSome) then analyses else []

theorem analyzeMessageBatch_fst (st : List MessageAnalysis)
    (batch : List Message) (reply : RawReply) :
    (analyzeMessageBatch st batch reply).1 = batchResult reply := by
  unfold analyzeMessageBatch batchResult
  match hp : parseRaw reply with
  | none => rfl
  | some analyses =>
    dsimp only
    rw [saveLoop_snd]
    split <;> rfl

/-- The batch loop of `LLMAnalyzer.analyze_channel`: batches are
processed sequentially, batch `i` consuming reply `i` of the oracle (a
missing reply stands for a failed model call, caught like a malformed
one); per-batch result sequences are concatenated into `all_analyses`
while the message-analysis table is threaded through. -/
def processBatches (st : List MessageAnalysis) :
    List (List Message) → List RawReply → List Analysis × List MessageAnalysis
  | [], _ => ([], st)
  | b :: bs, replies =>
    let p := analyzeMessageBatch st b (replies.headD RawReply.malformed)
    let q := processBatches p.2 bs replies.tail
    (p.1 ++ q.1, q.2)

/-- The run's collected analyses, batch by batch, independent of the
database state. -/
def collectedAnalyses : List (List Message) → List RawReply → List Analysis
  | [], _ => []
  | _ :: bs, replies =>
    batchResult (replies.headD RawReply.malformed) ++
      collectedAnalyses bs replies.tail

theorem processBatches_fst (batches : List (List Message))
    (replies : List RawReply) (st : List MessageAnalysis) :
    (processBatches st batches replies).1 =
      collectedAnalyses batches replies := by
  induction batches generalizing st replies with
  | nil => rfl
  | cons b bs ih =>
    unfold processBatches collectedAnalyses
    dsimp only
    rw [analyzeMessageBatch_fst, ih]

/-- C7 (malformed batch isolated): a malformed model reply makes
`_analyze_message_batch` return the empty record sequence with the
database untouched and no exception; and in the run's collected
analyses, a batch whose reply is malformed contributes nothing — the
remaining batches' contributions are exactly those of a run over the
other batches. -/
theorem malformed_batch_isolated (st : List MessageAnalysis)
    (batch : List Message) :
    analyzeMessageBatch st batch RawReply.malformed = ([], st) ∧
      ∀ (bs₁ bs₂ : List (List Message)) (b : List Message)
        (rs₁ rs₂ : List RawReply), rs₁.length = bs₁.length →
        collectedAnalyses (bs₁ ++ b :: bs₂)
            (rs₁ ++ RawReply.malformed :: rs₂) =
          collectedAnalyses bs₁ rs₁ ++ collectedAnalyses bs₂ rs₂ := by
  constructor
  · rfl
  · intro bs₁ bs₂ b rs₁ rs₂ hlen
    induction bs₁ generalizing rs₁ with
    | nil =>
      simp only [List.length_nil, List.length_eq_zero] at hlen
      subst hlen
      simp [collectedAnalyses, batchResult, parseRaw]
    | cons b' bs' ih =>
      match rs₁ with
      | r :: rs' =>
        simp only [List.length_cons, Nat.succ.injEq] at hlen
        simp only [List.cons_append, collectedAnalyses, List.headD_cons,
          List.tail_cons, List.append_assoc]
        rw [show bs' ++ b :: bs₂ = bs'.append (b :: bs₂) from rfl] at ih
        rw [ih rs' hlen]

theorem malformed_batch_isolated_witness :
    (analyzeMessageBatch [] [⟨1, 1, "alice", "hi"⟩] RawReply.malformed =
        ([], []) ∧
      [RawReply.bareList []].length = [[(⟨1, 1, "alice", "hi"⟩ : Message)]].length ∧
      collectedAnalyses ([[⟨1, 1, "alice", "hi"⟩]] ++
          [⟨2, 1, "bob", "yo"⟩] :: [[⟨3, 1, "carol", "hey"⟩]])
          ([RawReply.bareList []] ++ RawReply.malformed :: [RawReply.bareList []]) =
        collectedAnalyses [[⟨1, 1, "alice", "hi"⟩]] [RawReply.bareList []] ++
          collectedAnalyses [[⟨3, 1, "carol", "hey"⟩]] [RawReply.bareList []]) :=
  ⟨(malformed_batch_isolated [] [⟨1, 1, "alice", "hi"⟩]).1, rfl,
    (malformed_batch_isolated [] [⟨1, 1, "alice", "hi"⟩]).2
      [[⟨1, 1, "alice", "hi"⟩]] [[⟨3, 1, "carol", "hey"⟩]]
      [⟨2, 1, "bob", "yo"⟩] [RawReply.bareList []] [RawReply.bareList []] rfl⟩

/-- Deduplication keeping first occurrences: the canonical list
representative of a Python `set` built by successive insertions. -/
def dedupF (l : List String) : List String :=
  l.foldl (fun acc s => if s ∈ acc then acc else acc ++ [s]) []

theorem mem_foldl_dedup (l : List String) (acc : List String) (x : String) :
    (x ∈ l.foldl (fun acc s => if s ∈ acc then acc else acc ++ [s]) acc) ↔
      x ∈ acc ∨ x ∈ l := by
  induction l generalizing acc with
  | nil => simp
  | cons s rest ih =>
    rw [List.foldl_cons, ih]
    by_cases hs : s ∈ acc
    · simp only [if_pos hs, List.mem_cons]
      constructor
      · rintro (h | h)
        · exact Or.inl h
        · exact Or.inr (Or.inr h)
      · rintro (h | h | h)
        · exact Or.inl h
        · exact Or.inl (h ▸ hs)
        · exact Or.inr h
    · simp only [if_neg hs, List.mem_append, List.mem_singleton, List.mem_cons]
      tauto

theorem mem_dedupF (l : List String) (x : String) : x ∈ dedupF l ↔ x ∈ l := by
  unfold dedupF
  rw [mem_foldl_dedup]
  simp

theorem foldl_dedup_nodup (l : List String) (acc : List String)
    (h : acc.Nodup) :
    (l.foldl (fun acc s => if s ∈ acc then acc else acc ++ [s]) acc).Nodup := by
  induction l generalizing acc with
  | nil => exact h
  | cons s rest ih =>
    rw [List.foldl_cons]
    by_cases hs : s ∈ acc
    · rw [if_pos hs]
      exact ih acc h
    · rw [if_neg hs]
      refine ih _ (List.nodup_append.2 ⟨h, List.nodup_singleton s, ?_⟩)
      simp only [List.disjoint_singleton]
      exact hs

theorem dedupF_nodup (l : List String) : (dedupF l).Nodup :=
  foldl_dedup_nodup l [] List.nodup_nil

theorem dedupF_toFinset (l : List String) : (dedupF l).toFinset = l.toFinset := by
  ext x
  simp [mem_dedupF]

/-- Python's `list(set(a + b))`: the set union of two lists, as the
deduplicated concatenation. -/
def setUnion (a b : List String) : List String := dedupF (a ++ b)

theorem setUnion_toFinset (a b : List String) :
    (setUnion a b).toFinset = a.toFinset ∪ b.toFinset := by
  rw [setUnion, dedupF_toFinset]
  simp

/-- The distinct authors of a run's analyses in first-occurrence order:
the key order of the `author_data` dict of
`LLMAnalyzer._aggregate_analyses`. -/
def authorKeys (analyses : List Analysis) : List String :=
  analyses.foldl
    (fun ks a => if a.author.getD "" ∈ ks then ks else ks ++ [a.author.getD ""])
    []

/-- The records grouped under author `u` by `_aggregate_analyses`. -/
def recordsOf (analyses : List Analysis) (u : String) : List Analysis :=
  analyses.filter (fun a => a.author.getD "" == u)

/-- The `total_score` accumulated for a group:
`+= analysis.get('intent_score', 0)`. -/
def totalScoreOf (recs : List Analysis) : ℚ :=
  (recs.map (fun a => a.intent_score.getD 0)).sum

/-- The `pain_points` set accumulated for a group:
`.update(analysis.get('pain_points', []))`. -/
def painPointsOf (recs : List Analysis) : List String :=
  dedupF (recs.foldl (fun acc a => acc ++ a.pain_points.getD []) [])

/-- The `interests` set accumulated for a group:
`.update(analysis.get('interests', []))`. -/
def interestsOf (recs : List Analysis) : List String :=
  dedupF (recs.foldl (fun acc a => acc ++ a.interests.getD []) [])

/-- One entry of the `potential_customers` list that
`_aggregate_analyses` returns. -/
structure Candidate where
  username : String
  score : ℚ
  pain_points : List String
  interests : List String
  message_count : ℕ
  engagement_level : String
deriving DecidableEq, Repr

/-- A persisted `PotentialCustomer` row (`models/database.py`);
timestamps are modelled by the explicit clock. -/
structure Customer where
  discord_user_id : String
  username : String
  score : ℚ
  pain_points : List String
  interests : List String
  engagement_level : String
  first_seen : ℕ
  last_seen : ℕ
  message_count : ℕ
deriving DecidableEq, Repr

/-- Update the first element satisfying `p` (SQLAlchemy's
`.filter_by(...).first()` followed by in-place mutation). -/
def updateFirst (p : Customer → Bool) (f : Customer → Customer) :
    List Customer → List Customer
  | [] => []
  | c :: cs => if p c then f c :: cs else c :: updateFirst p f cs

/-- Model of `LLMAnalyzer._update_potential_customer`: create a fresh profile
(score = run average, counts = run count, both timestamps = now), or
merge into the existing one — score becomes the two-run average
`(old + new) / 2`, pain points and interests become `list(set(old + new))`,
the message count is additive, and the engagement level is recomputed
from the new score and new count. -/
def updatePotentialCustomer (now : ℕ) (customers : List Customer)
    (username : String) (pain inter : List String) (count : ℕ) (score : ℚ) :
    List Customer :=
  match customers.find? (fun c => c.username == username) with
  | none =>
    customers ++ [⟨username, username, score, pain, inter,
      calculateEngagementLevel score count, now, now, count⟩]
  | some _ =>
    updateFirst (fun c => c.username == username)
      (fun c =>
        let newScore := (c.score + score) / 2
        let newCount := c.message_count + count
        { c with
          score := newScore,
          pain_points := setUnion c.pain_points pain,
          interests := setUnion c.interests inter,
          last_seen := now,
          message_count := newCount,
          engagement_level := calculateEngagementLevel newScore newCount })
      customers

/-- The candidate-selection loop body of `_aggregate_analyses`: for one
author key, compute the run average and, when it exceeds 0.5, merge the
profile and append the candidate. -/
def aggregateStep (now : ℕ) (analyses : List Analysis)
    (acc : List Customer × List Candidate) (u : String) :
    List Customer × List Candidate :=
  let recs := recordsOf analyses u
  let avg := totalScoreOf recs / (recs.length : ℚ)
  if avg > 1/2 then
    (updatePotentialCustomer now acc.1 u (painPointsOf recs)
        (interestsOf recs) recs.length avg,
      acc.2 ++ [⟨u, avg, painPointsOf recs, interestsOf recs, recs.length,
        calculateEngagementLevel avg recs.length⟩])
  else acc

/-- Descending order on candidate scores
(`potential_customers.sort(key=lambda x: x['score'], reverse=True)`). -/
def candDesc : Candidate → Candidate → Prop := fun a b => b.score ≤ a.score

instance : DecidableRel candDesc := fun a b =>
  inferInstanceAs (Decidable (b.score ≤ a.score))

instance : IsTotal Candidate candDesc := ⟨fun a b => le_total b.score a.score⟩

instance : IsTrans Candidate candDesc := ⟨fun _ _ _ h1 h2 => le_trans h2 h1⟩

/-- The grouping and candidate selection of
`LLMAnalyzer._aggregate_analyses`, threading the customer table through
the per-author merges. `analysis['author']` is bracket access, so a
missing author raises `KeyError` (modelled by `none`); otherwise the
candidates are returned sorted by descending score (Python's stable
sort). -/
def aggregateAnalyses (now : ℕ) (customers : List Customer)
    (analyses : List Analysis) : Option (List Customer × List Candidate) :=
  if analyses.all (fun a => a.author.isSome) then
    let p := (authorKeys analyses).foldl (aggregateStep now analyses)
      (customers, [])
    some (p.1, List.insertionSort candDesc p.2)
  else none

theorem aggregateStep_scores (now : ℕ) (analyses : List Analysis)
    (acc : List Customer × List Candidate) (u : String)
    (h : ∀ c ∈ acc.2, 1/2 < c.score) :
    ∀ c ∈ (aggregateStep now analyses acc u).2, 1/2 < c.score := by
  unfold aggregateStep
  dsimp only
  split
  · rename_i havg
    intro c hc
    rcases List.mem_append.1 hc with hc | hc
    · exact h c hc
    · simp only [List.mem_singleton] at hc
      subst hc
      exact havg
  · exact h

theorem foldl_aggregateStep_scores (now : ℕ) (analyses : List Analysis)
    (keys : List String) (acc : List Customer × List Candidate)
    (h : ∀ c ∈ acc.2, 1/2 < c.score) :
    ∀ c ∈ (keys.foldl (aggregateStep now analyses) acc).2, 1/2 < c.score := by
  induction keys generalizing acc with
  | nil => exact h
  | cons k ks ih =>
    exact ih _ (aggregateStep_scores now analyses acc k h)

/-- C5 (threshold respect): every candidate in the
`potential_customers` list produced by `_aggregate_analyses` has average
intent score strictly greater than 0.5; no candidate with average score
at or below 0.5 is ever returned. -/
theorem aggregator_threshold (now : ℕ) (customers : List Customer)
    (analyses : List Analysis) (res : List Customer × List Candidate)
    (h : aggregateAnalyses now customers analyses = some res) :
    ∀ c ∈ res.2, 1/2 < c.score := by
  unfold aggregateAnalyses at h
  split at h
  · simp only [Option.some.injEq] at h
    subst h
    intro c hc
    dsimp only at hc
    have hmem : c ∈ ((authorKeys analyses).foldl (aggregateStep now analyses)
        (customers, [])).2 :=
      (List.perm_insertionSort candDesc _).mem_iff.1 hc
    exact foldl_aggregateStep_scores now analyses (authorKeys analyses)
      (customers, []) (by simp) c hmem
  · exact absurd h (by simp)

theorem aggregator_threshold_witness :
    aggregateAnalyses 0 []
        [⟨some 1, some "alice", some (9/10), none, none, none, none, none⟩] =
        some ((aggregateAnalyses 0 []
          [⟨some 1, some "alice", some (9/10), none, none, none, none, none⟩]).getD
            ([], [])) ∧
      ∀ c ∈ ((aggregateAnalyses 0 []
          [⟨some 1, some "alice", some (9/10), none, none, none, none,
            none⟩]).getD ([], [])).2, 1/2 < c.score :=
  ⟨rfl,
    aggregator_threshold 0 []
      [⟨some 1, some "alice", some (9/10), none, none, none, none, none⟩]
      _ rfl⟩

/-- C8 counterexample: the claim "a missing author is coerced to the
empty string, so downstream aggregation never fails on an entry that
merely omits an optional field" is false: `_aggregate_analyses` reads
`analysis['author']` with bracket access, so aggregating a single entry
that omits only the author field raises `KeyError` (modelled by `none`)
instead of succeeding with author `""`. -/
theorem missing_author_fails_cex :
    aggregateAnalyses 0 []
      [⟨some 1, none, some 1, some "seeking_solution", some ["p"],
        some ["i"], some ["k"], some "e"⟩] = none := rfl

/-- C8 amended: missing `intent_score` is coerced to 0, missing
`pain_points`/`interests`/`keywords` to empty collections, and missing
`intent_type`/`explanation` to empty strings, in both persistence and
aggregation; but `author` is not coerced — it is required, and
aggregation succeeds exactly when every entry carries an author. -/
theorem optional_field_defaults (now : ℕ) (customers : List Customer)
    (st : List MessageAnalysis) (m : Message) (u : String) (mid : ℤ)
    (analyses : List Analysis)
    (hnew : st.any (fun r => r.message_id == m.id) = false) :
    saveMessageAnalysis st m
        ⟨some mid, some u, none, none, none, none, none, none⟩ =
        st ++ [⟨m.id, 0, "", "neutral", [], ""⟩] ∧
      totalScoreOf [⟨some mid, some u, none, none, none, none, none, none⟩]
          = 0 ∧
      painPointsOf [⟨some mid, some u, none, none, none, none, none, none⟩]
          = [] ∧
      interestsOf [⟨some mid, some u, none, none, none, none, none, none⟩]
          = [] ∧
      (aggregateAnalyses now customers
        [⟨some mid, some u, none, none, none, none, none, none⟩]).isSome ∧
      ((aggregateAnalyses now customers analyses).isSome ↔
        ∀ a ∈ analyses, a.author.isSome) := by
  refine ⟨?_, by simp [totalScoreOf], by simp [painPointsOf, dedupF],
    by simp [interestsOf, dedupF], ?_, ?_⟩
  · unfold saveMessageAnalysis
    rw [hnew]
    rfl
  · unfold aggregateAnalyses
    simp
  · unfold aggregateAnalyses
    by_cases hall : analyses.all (fun a => a.author.isSome)
    · simp only [hall, if_pos]
      simpa [List.all_eq_true] using (List.all_eq_true.1 hall)
    · rw [if_neg hall]
      simp only [Option.isSome_none, Bool.false_eq_true, false_iff]
      intro hcon
      exact hall (List.all_eq_true.2 hcon)

theorem optional_field_defaults_witness :
    (([] : List MessageAnalysis).any
        (fun r => r.message_id == (⟨1, 1, "alice", "hi"⟩ : Message).id) =
          false) ∧
      (saveMessageAnalysis [] ⟨1, 1, "alice", "hi"⟩
          ⟨some 1, some "alice", none, none, none, none, none, none⟩ =
          [] ++ [⟨(1 : ℤ), 0, "", "neutral", [], ""⟩] ∧
        totalScoreOf [⟨some 1, some "alice", none, none, none, none, none,
          none⟩] = 0 ∧
        painPointsOf [⟨some 1, some "alice", none, none, none, none, none,
          none⟩] = [] ∧
        interestsOf [⟨some 1, some "alice", none, none, none, none, none,
          none⟩] = [] ∧
        (aggregateAnalyses 0 []
          [⟨some 1, some "alice", none, none, none, none, none,
            none⟩]).isSome ∧
        ((aggregateAnalyses 0 []
            [⟨some 1, some "alice", none, none, none, none, none,
              none⟩]).isSome ↔
          ∀ a ∈ [(⟨some 1, some "alice", none, none, none, none, none,
            none⟩ : Analysis)], a.author.isSome)) :=
  ⟨rfl,
    optional_field_defaults 0 [] [] ⟨1, 1, "alice", "hi"⟩ "alice" 1
      [⟨some 1, some "alice", none, none, none, none, none, none⟩] rfl⟩

theorem find?_skip_front (u : String) (pre post : List Customer)
    (c : Customer) (hpre : ∀ d ∈ pre, d.username ≠ u) (hc : c.username = u) :
    (pre ++ c :: post).find? (fun d => d.username == u) = some c := by
  induction pre with
  | nil =>
    simp only [List.nil_append, List.find?_cons]
    rw [show (c.username == u) = true by simp [hc]]
  | cons d ds ih =>
    simp only [List.cons_append, List.find?_cons]
    rw [show (d.username == u) = false by
      simp [hpre d (List.mem_cons_self d ds)]]
    exact ih (fun d' hd' => hpre d' (List.mem_cons_of_mem d hd'))

theorem updateFirst_skip_front (u : String) (f : Customer → Customer)
    (pre post : List Customer) (c : Customer)
    (hpre : ∀ d ∈ pre, d.username ≠ u) (hc : c.username = u) :
    updateFirst (fun d => d.username == u) f (pre ++ c :: post) =
      pre ++ f c :: post := by
  induction pre with
  | nil =>
    simp only [List.nil_append, updateFirst]
    rw [if_pos (by simp [hc])]
  | cons d ds ih =>
    simp only [List.cons_append, updateFirst]
    rw [if_neg (by simp [hpre d (List.mem_cons_self d ds)])]
    exact congrArg (List.cons d)
      (ih (fun d' hd' => hpre d' (List.mem_cons_of_mem d hd')))

/-- C3 (merge engine): merging a run aggregate with average score `s`
and count `n` into a store with no profile for the author creates a
profile with score `s` and count `n`; merging the same aggregate again
yields score `(s + s) / 2 = s` (a fixed point) but count `2 * n`; and in
general, merging into an existing profile gives score
`(old + s) / 2`, pain points and interests equal to the set unions of old
and new, and an additive message count. -/
theorem merge_engine (now₁ now₂ : ℕ) (u : String) (s : ℚ) (n : ℕ)
    (pain inter : List String) :
    (∃ c₁, updatePotentialCustomer now₁ [] u pain inter n s = [c₁] ∧
      c₁.username = u ∧ c₁.score = s ∧ c₁.message_count = n ∧
      ∃ c₂, updatePotentialCustomer now₂ [c₁] u pain inter n s = [c₂] ∧
        c₂.score = s ∧ c₂.message_count = 2 * n) ∧
    ∀ (pre post : List Customer) (c : Customer),
      (∀ d ∈ pre, d.username ≠ u) → c.username = u →
      ∃ c', updatePotentialCustomer now₂ (pre ++ c :: post) u pain inter n s =
          pre ++ c' :: post ∧
        c'.score = (c.score + s) / 2 ∧
        c'.pain_points.toFinset = c.pain_points.toFinset ∪ pain.toFinset ∧
        c'.interests.toFinset = c.interests.toFinset ∪ inter.toFinset ∧
        c'.message_count = c.message_count + n := by
  have hgen : ∀ (now : ℕ) (pre post : List Customer) (c : Customer),
      (∀ d ∈ pre, d.username ≠ u) → c.username = u →
      ∃ c', updatePotentialCustomer now (pre ++ c :: post) u pain inter n s =
          pre ++ c' :: post ∧
        c'.score = (c.score + s) / 2 ∧
        c'.pain_points.toFinset = c.pain_points.toFinset ∪ pain.toFinset ∧
        c'.interests.toFinset = c.interests.toFinset ∪ inter.toFinset ∧
        c'.message_count = c.message_count + n := by
    intro now pre post c hpre hc
    refine ⟨{ c with
        score := (c.score + s) / 2,
        pain_points := setUnion c.pain_points pain,
        interests := setUnion c.interests inter,
        last_seen := now,
        message_count := c.message_count + n,
        engagement_level :=
          calculateEngagementLevel ((c.score + s) / 2) (c.message_count + n) },
      ?_, rfl, setUnion_toFinset _ _, setUnion_toFinset _ _, rfl⟩
    unfold updatePotentialCustomer
    rw [find?_skip_front u pre post c hpre hc]
    exact updateFirst_skip_front u _ pre post c hpre hc
  constructor
  · refine ⟨⟨u, u, s, pain, inter, calculateEngagementLevel s n, now₁, now₁, n⟩,
      ?_, rfl, rfl, rfl, ?_⟩
    · unfold updatePotentialCustomer
      simp
    · obtain ⟨c₂, hc₂, hsc, hpain, hint, hcnt⟩ :=
        hgen now₂ [] []
          ⟨u, u, s, pain, inter, calculateEngagementLevel s n, now₁, now₁, n⟩
          (by simp) rfl
      refine ⟨c₂, by simpa using hc₂, ?_, ?_⟩
      · rw [hsc]
        show (s + s) / 2 = s
        ring
      · rw [hcnt]
        show n + n = 2 * n
        ring
  · exact hgen now₂

theorem merge_engine_witness :
    (∃ c₁, updatePotentialCustomer 5 [] "bob" ["p"] ["i"] 2 (9/10) = [c₁] ∧
      c₁.username = "bob" ∧ c₁.score = 9/10 ∧ c₁.message_count = 2 ∧
      ∃ c₂, updatePotentialCustomer 7 [c₁] "bob" ["p"] ["i"] 2 (9/10) = [c₂] ∧
        c₂.score = 9/10 ∧ c₂.message_count = 2 * 2) ∧
    (∃ c', updatePotentialCustomer 7
        ([⟨"ann", "ann", 1, [], [], "low", 0, 0, 1⟩] ++
          (⟨"bob", "bob", 1/2, ["q"], ["j"], "low", 0, 0, 3⟩ : Customer) ::
            []) "bob" ["p"] ["i"] 2 (9/10) =
        [⟨"ann", "ann", 1, [], [], "low", 0, 0, 1⟩] ++ c' :: [] ∧
      c'.score =
        ((⟨"bob", "bob", 1/2, ["q"], ["j"], "low", 0, 0, 3⟩ : Customer).score +
          9/10) / 2 ∧
      c'.pain_points.toFinset =
        (⟨"bob", "bob", 1/2, ["q"], ["j"], "low", 0, 0,
          3⟩ : Customer).pain_points.toFinset ∪
          (["p"] : List String).toFinset ∧
      c'.interests.toFinset =
        (⟨"bob", "bob", 1/2, ["q"], ["j"], "low", 0, 0,
          3⟩ : Customer).interests.toFinset ∪
          (["i"] : List String).toFinset ∧
      c'.message_count =
        (⟨"bob", "bob", 1/2, ["q"], ["j"], "low", 0, 0,
          3⟩ : Customer).message_count + 2) :=
  ⟨(merge_engine 5 7 "bob" (9/10) 2 ["p"] ["i"]).1,
    (merge_engine 5 7 "bob" (9/10) 2 ["p"] ["i"]).2
      [⟨"ann", "ann", 1, [], [], "low", 0, 0, 1⟩] []
      ⟨"bob", "bob", 1/2, ["q"], ["j"], "low", 0, 0, 3⟩
      (by decide) rfl⟩

/-- One `all_pain_points[p] = all_pain_points.get(p, 0) + 1` update of
the histogram dict: increment the entry if present, else append it. -/
def bumpCount : List (String × ℕ) → String → List (String × ℕ)
  | [], p => [(p, 1)]
  | q :: m, p => if q.1 = p then (q.1, q.2 + 1) :: m else q :: bumpCount m p

/-- Fold one profile's pain-point list into the histogram dict. -/
def histAdd (m : List (String × ℕ)) (ps : List String) : List (String × ℕ) :=
  ps.foldl bumpCount m

/-- The pain-point histogram of `generate_customer_report` (and of
`_generate_summary`): a dict from pain point to occurrence count, in key
insertion order. -/
def painHistogram (pss : List (List String)) : List (String × ℕ) :=
  pss.foldl histAdd []

/-- The value stored for key `p` in the histogram dict (0 if absent). -/
def histVal : List (String × ℕ) → String → ℕ
  | [], _ => 0
  | q :: m, p => if q.1 = p then q.2 else histVal m p

theorem histVal_bumpCount (m : List (String × ℕ)) (p q : String) :
    histVal (bumpCount m p) q =
      if q = p then histVal m p + 1 else histVal m q := by
  induction m with
  | nil =>
    by_cases h : q = p
    · subst h
      simp [bumpCount, histVal]
    · simp only [bumpCount, histVal]
      rw [if_neg (fun hh : p = q => h hh.symm), if_neg h]
  | cons r m ih =>
    simp only [bumpCount]
    by_cases hr : r.1 = p
    · rw [if_pos hr]
      by_cases hq : q = p
      · subst hq
        simp [histVal, hr]
      · have h1 : r.1 ≠ q := by
          rw [hr]
          exact fun hh => hq hh.symm
        simp [histVal, hq, h1]
    · rw [if_neg hr]
      by_cases hq : q = p
      · subst hq
        simp [histVal, ih, hr]
      · simp [histVal, ih, hq]

theorem histVal_histAdd (ps : List String) (m : List (String × ℕ))
    (q : String) :
    histVal (histAdd m ps) q = histVal m q + ps.count q := by
  induction ps generalizing m with
  | nil => simp [histAdd]
  | cons p ps ih =>
    show histVal (histAdd (bumpCount m p) ps) q = _
    rw [ih, histVal_bumpCount, List.count_cons]
    by_cases hq : q = p
    · subst hq
      simp only [if_pos rfl]
      simp
      omega
    · have hpq : p ≠ q := fun hh => hq hh.symm
      simp only [if_neg hq]
      simp [hpq]

theorem histVal_painHistogram (pss : List (List String)) (q : String) :
    histVal (painHistogram pss) q = (pss.map (fun ps => ps.count q)).sum := by
  have hgen : ∀ (m : List (String × ℕ)),
      histVal (pss.foldl histAdd m) q =
        histVal m q + (pss.map (fun ps => ps.count q)).sum := by
    induction pss with
    | nil => simp
    | cons ps pss ih =>
      intro m
      rw [List.foldl_cons, ih, histVal_histAdd]
      simp [Nat.add_assoc]
  have := hgen []
  rwa [show histVal [] q = 0 from rfl, Nat.zero_add] at this

/-- The keys of the histogram dict, in insertion order. -/
def histKeys (m : List (String × ℕ)) : List String := m.map Prod.fst

theorem histKeys_bumpCount (m : List (String × ℕ)) (p : String) :
    histKeys (bumpCount m p) = histKeys m ∨
      histKeys (bumpCount m p) = histKeys m ++ [p] := by
  induction m with
  | nil => right; rfl
  | cons r m ih =>
    simp only [bumpCount]
    by_cases hr : r.1 = p
    · left
      simp [hr, histKeys]
    · rcases ih with ih | ih
      · left
        simp [if_neg hr, histKeys] at ih ⊢
        exact ih
      · right
        simp [if_neg hr, histKeys] at ih ⊢
        exact ih

theorem mem_histKeys_bumpCount (m : List (String × ℕ)) (p x : String)
    (hx : x ∈ histKeys (bumpCount m p)) : x ∈ histKeys m ∨ x = p := by
  rcases histKeys_bumpCount m p with h | h
  · rw [h] at hx
    exact Or.inl hx
  · rw [h] at hx
    rcases List.mem_append.1 hx with hx | hx
    · exact Or.inl hx
    · simp only [List.mem_singleton] at hx
      exact Or.inr hx

theorem histKeys_bumpCount_nodup (m : List (String × ℕ)) (p : String)
    (h : (histKeys m).Nodup) : (histKeys (bumpCount m p)).Nodup := by
  induction m with
  | nil => simp [bumpCount, histKeys]
  | cons r m ih =>
    simp only [histKeys, List.map_cons, List.nodup_cons] at h
    obtain ⟨hr, hm⟩ := h
    simp only [bumpCount]
    by_cases hrp : r.1 = p
    · simp only [if_pos hrp, histKeys, List.map_cons, List.nodup_cons]
      exact ⟨hr, hm⟩
    · simp only [if_neg hrp, histKeys, List.map_cons, List.nodup_cons]
      refine ⟨?_, ih hm⟩
      intro hcon
      rcases mem_histKeys_bumpCount m p r.1 hcon with hc | hc
      · exact hr hc
      · exact hrp hc

theorem histAdd_keys_nodup (ps : List String) (m : List (String × ℕ))
    (h : (histKeys m).Nodup) : (histKeys (histAdd m ps)).Nodup := by
  induction ps generalizing m with
  | nil => exact h
  | cons p ps ih =>
    exact ih _ (histKeys_bumpCount_nodup m p h)

theorem painHistogram_keys_nodup (pss : List (List String)) :
    (histKeys (painHistogram pss)).Nodup := by
  have hgen : ∀ (m : List (String × ℕ)), (histKeys m).Nodup →
      (histKeys (pss.foldl histAdd m)).Nodup := by
    induction pss with
    | nil => exact fun m h => h
    | cons ps pss ih =>
      intro m h
      exact ih _ (histAdd_keys_nodup ps m h)
  exact hgen [] (by simp [histKeys])

theorem histVal_of_mem (m : List (String × ℕ)) (p : String) (k : ℕ)
    (hnd : (histKeys m).Nodup) (h : (p, k) ∈ m) : histVal m p = k := by
  induction m with
  | nil => cases h
  | cons r m ih =>
    simp only [histKeys, List.map_cons, List.nodup_cons] at hnd
    obtain ⟨hr, hm⟩ := hnd
    rcases List.mem_cons.1 h with h | h
    · subst h
      simp [histVal]
    · have hrp : r.1 ≠ p := by
        intro hcon
        apply hr
        rw [hcon]
        exact List.mem_map_of_mem Prod.fst h
      rw [histVal, if_neg hrp]
      exact ih hm h

/-- Descending order on histogram counts
(`sorted(..., key=lambda x: x[1], reverse=True)`). -/
def pairDesc : (String × ℕ) → (String × ℕ) → Prop := fun a b => b.2 ≤ a.2

instance : DecidableRel pairDesc := fun a b =>
  inferInstanceAs (Decidable (b.2 ≤ a.2))

instance : IsTotal (String × ℕ) pairDesc := ⟨fun a b => le_total b.2 a.2⟩

instance : IsTrans (String × ℕ) pairDesc := ⟨fun _ _ _ h1 h2 => le_trans h2 h1⟩

/-- Descending order on customer scores
(`sorted(customers, key=lambda x: x.score, reverse=True)`). -/
def custDesc : Customer → Customer → Prop := fun a b => b.score ≤ a.score

instance : DecidableRel custDesc := fun a b =>
  inferInstanceAs (Decidable (b.score ≤ a.score))

instance : IsTotal Customer custDesc := ⟨fun a b => le_total b.score a.score⟩

instance : IsTrans Customer custDesc := ⟨fun _ _ _ h1 h2 => le_trans h2 h1⟩

/-- One entry of the report's `customers` list (username, score,
engagement level, top-5 pain points and interests). -/
structure ReportCustomer where
  username : String
  score : ℚ
  engagement_level : String
  pain_points : List String
  interests : List String
deriving DecidableEq, Repr

/-- The value returned by `LLMAnalyzer.generate_customer_report`. -/
structure CustomerReport where
  total_customers : ℕ
  high_priority_count : ℕ
  total_messages : ℕ
  top_pain_points : List (String × ℕ)
  customers : List ReportCustomer
deriving DecidableEq, Repr

/-- Model of `LLMAnalyzer.generate_customer_report`: empty store gives the zero
report; otherwise counts, the pain-point histogram sorted by descending
frequency truncated to the top 10, and the top-20 profiles by score with
their first five pain points and interests. -/
def generateCustomerReport (customers : List Customer) : CustomerReport :=
  if customers.isEmpty then ⟨0, 0, 0, [], []⟩
  else
    ⟨customers.length,
      customers.countP (fun c => c.engagement_level == "high"),
      (customers.map (fun c => c.message_count)).sum,
      (List.insertionSort pairDesc
        (painHistogram (customers.map (fun c => c.pain_points)))).take 10,
      ((List.insertionSort custDesc customers).take 20).map (fun c =>
        ⟨c.username, c.score, c.engagement_level, c.pain_points.take 5,
          c.interests.take 5⟩)⟩

theorem sum_count_eq_countP (pss : List (List String)) (q : String)
    (hnd : ∀ ps ∈ pss, ps.Nodup) :
    (pss.map (fun ps => ps.count q)).sum =
      pss.countP (fun ps => decide (q ∈ ps)) := by
  induction pss with
  | nil => rfl
  | cons ps pss ih =>
    rw [List.map_cons, List.sum_cons, List.countP_cons,
      ih (fun ps' hps' => hnd ps' (List.mem_cons_of_mem ps hps'))]
    by_cases hq : q ∈ ps
    · rw [List.count_eq_one_of_mem (hnd ps (List.mem_cons_self ps pss)) hq]
      simp [hq, Nat.add_comm]
    · rw [List.count_eq_zero_of_not_mem hq]
      simp [hq]

/-- C9 (report histogram): over profiles whose stored pain-point
lists are duplicate-free (as the merge engine writes them), every entry
of the report's `top_pain_points` counts one occurrence per profile
containing that pain point, the list is sorted by descending frequency
and truncated to ten entries; and the three profiles with pain points
{A,B}, {A}, {C} yield exactly the histogram A:2, B:1, C:1. -/
theorem report_histogram (customers : List Customer)
    (hnd : ∀ c ∈ customers, c.pain_points.Nodup) :
    (∀ pk ∈ (generateCustomerReport customers).top_pain_points,
        pk.2 = customers.countP (fun c => decide (pk.1 ∈ c.pain_points))) ∧
      (generateCustomerReport customers).top_pain_points.length ≤ 10 ∧
      List.Pairwise pairDesc (generateCustomerReport customers).top_pain_points ∧
      (generateCustomerReport
          [⟨"u1", "u1", 1, ["A", "B"], [], "low", 0, 0, 1⟩,
            ⟨"u2", "u2", 1, ["A"], [], "low", 0, 0, 1⟩,
            ⟨"u3", "u3", 1, ["C"], [], "low", 0, 0, 1⟩]).top_pain_points =
        [("A", 2), ("B", 1), ("C", 1)] := by
  by_cases hemp : customers.isEmpty
  · refine ⟨?_, ?_, ?_, by decide⟩ <;>
      simp [generateCustomerReport, hemp]
  · have htop : (generateCustomerReport customers).top_pain_points =
        (List.insertionSort pairDesc
          (painHistogram (customers.map (fun c => c.pain_points)))).take 10 := by
      simp [generateCustomerReport, hemp]
    refine ⟨?_, ?_, ?_, by decide⟩
    · intro pk hpk
      rw [htop] at hpk
      have h1 : pk ∈ List.insertionSort pairDesc
          (painHistogram (customers.map (fun c => c.pain_points))) :=
        List.mem_of_mem_take hpk
      have h2 : pk ∈ painHistogram (customers.map (fun c => c.pain_points)) :=
        (List.perm_insertionSort pairDesc _).mem_iff.1 h1
      obtain ⟨p, k⟩ := pk
      have h3 := histVal_of_mem _ p k (painHistogram_keys_nodup _) h2
      dsimp only
      rw [← h3, histVal_painHistogram, sum_count_eq_countP, List.countP_map]
      · rfl
      · intro ps hps
        obtain ⟨c, hc, rfl⟩ := List.mem_map.1 hps
        exact hnd c hc
    · rw [htop, List.length_take]
      exact min_le_left _ _
    · rw [htop]
      exact (List.sorted_insertionSort pairDesc _).sublist
        (List.take_sublist _ _)

theorem report_histogram_witness :
    (∀ c ∈ [(⟨"u1", "u1", 1, ["A", "B"], [], "low", 0, 0, 1⟩ : Customer),
        ⟨"u2", "u2", 1, ["A"], [], "low", 0, 0, 1⟩,
        ⟨"u3", "u3", 1, ["C"], [], "low", 0, 0, 1⟩], c.pain_points.Nodup) ∧
      (generateCustomerReport
          [⟨"u1", "u1", 1, ["A", "B"], [], "low", 0, 0, 1⟩,
            ⟨"u2", "u2", 1, ["A"], [], "low", 0, 0, 1⟩,
            ⟨"u3", "u3", 1, ["C"], [], "low", 0, 0, 1⟩]).top_pain_points =
        [("A", 2), ("B", 1), ("C", 1)] :=
  ⟨by decide,
    (report_histogram
      [⟨"u1", "u1", 1, ["A", "B"], [], "low", 0, 0, 1⟩,
        ⟨"u2", "u2", 1, ["A"], [], "low", 0, 0, 1⟩,
        ⟨"u3", "u3", 1, ["C"], [], "low", 0, 0, 1⟩] (by decide)).2.2.2⟩

/-- Model of `LLMAnalyzer._generate_summary`: a textual summary of the run's
candidates (count, top-3 pain points by frequency, high-engagement
count). -/
def generateSummary (cands : List Candidate) : String :=
  if cands.isEmpty then "No potential customers identified in this analysis."
  else
    "Identified " ++ toString cands.length ++ " potential customers. " ++
      "Top pain points: " ++
      String.intercalate ", "
        (((List.insertionSort pairDesc
          (painHistogram (cands.map (fun c => c.pain_points)))).take 3).map
            Prod.fst) ++
      ". " ++ "High engagement users: " ++
      toString (cands.countP (fun c => c.engagement_level == "high"))

/-- The dict returned by `LLMAnalyzer.analyze_channel`: the
`no_messages` early return carries only `status` and
`potential_customers`; the success path also carries
`total_messages_analyzed` and `summary` (absent keys are `none`). -/
structure AnalysisResult where
  status : String
  total_messages_analyzed : Option ℕ
  potential_customers : List Candidate
  summary : Option String
deriving DecidableEq, Repr

/-- A persisted `ChannelAnalysis` row: the snapshot appended by
`_save_channel_analysis` (summary plus structured insights — candidate
count, messages analyzed, top-5 customers as username/score pairs). -/
structure ChannelAnalysisRow where
  channel_id : ℤ
  analysis_type : String
  summary : String
  potential_customers_count : ℕ
  messages_analyzed : ℕ
  top_customers : List (String × ℚ)
deriving DecidableEq, Repr

/-- The persistent store as the analyzer sees it. -/
structure DBState where
  messages : List Message
  messageAnalyses : List MessageAnalysis
  customers : List Customer
  channelAnalyses : List ChannelAnalysisRow
deriving DecidableEq, Repr

/-- Model of `LLMAnalyzer._save_channel_analysis`: append one immutable snapshot
of the run's aggregate result. -/
def saveChannelAnalysis (st : List ChannelAnalysisRow) (channelId : ℤ)
    (res : AnalysisResult) : List ChannelAnalysisRow :=
  st ++ [⟨channelId, "customer_intent", res.summary.getD "",
    res.potential_customers.length, res.total_messages_analyzed.getD 0,
    (res.potential_customers.take 5).map (fun c => (c.username, c.score))⟩]

/-- Model of `LLMAnalyzer.analyze_channel`, with the model abstracted into the
`replies` oracle (reply `i` answers the call for batch `i`; a missing
reply stands for a failed call, handled like a malformed one). Returns
the result dict (`none` models the uncaught `KeyError` escaping from
`_aggregate_analyses`), the updated store, and the number of model calls
made. An empty channel returns `no_messages` before batching, calling
the model, or writing anything. -/
def analyzeChannel (now : ℕ) (tok : Message → ℕ) (st : DBState)
    (channelId : ℤ) (replies : List RawReply) :
    Option AnalysisResult × DBState × ℕ :=
  let msgs := st.messages.filter (fun m => m.channel_id == channelId)
  if msgs.isEmpty then
    (some ⟨"no_messages", none, [], none⟩, st, 0)
  else
    let batches := createMessageBatches tok msgs
    let p := processBatches st.messageAnalyses batches replies
    match aggregateAnalyses now st.customers p.1 with
    | none => (none, { st with messageAnalyses := p.2 }, batches.length)
    | some q =>
      let res : AnalysisResult :=
        ⟨"success", some p.1.length, q.2, some (generateSummary q.2)⟩
      (some res,
        { st with
          messageAnalyses := p.2,
          customers := q.1,
          channelAnalyses :=
            saveChannelAnalysis st.channelAnalyses channelId res },
        batches.length)

/-- C10 (empty channel): when the store holds no message for the
channel, `analyze_channel` returns status `no_messages` with an empty
`potential_customers` list, makes zero model calls, and leaves the
persistent state entirely unchanged — no message analysis, customer
profile, or channel snapshot is written. -/
theorem no_messages_no_effect (now : ℕ) (tok : Message → ℕ) (st : DBState)
    (channelId : ℤ) (replies : List RawReply)
    (h : st.messages.filter (fun m => m.channel_id == channelId) = []) :
    analyzeChannel now tok st channelId replies =
      (some ⟨"no_messages", none, [], none⟩, st, 0) := by
  unfold analyzeChannel
  simp only [h]
  rfl

theorem no_messages_no_effect_witness :
    ((⟨[⟨1, 9, "alice", "hi"⟩], [], [], []⟩ : DBState).messages.filter
        (fun m => m.channel_id == (2 : ℤ)) = []) ∧
      analyzeChannel 0 (fun m => m.content.length)
          ⟨[⟨1, 9, "alice", "hi"⟩], [], [], []⟩ 2 [] =
        (some ⟨"no_messages", none, [], none⟩,
          ⟨[⟨1, 9, "alice", "hi"⟩], [], [], []⟩, 0) :=
  ⟨by decide,
    no_messages_no_effect 0 (fun m => m.content.length)
      ⟨[⟨1, 9, "alice", "hi"⟩], [], [], []⟩ 2 [] (by decide)⟩
